import Mathlib

set_option maxHeartbeats 1000000

namespace CLIEdit

def nlChar : Char := Char.ofNat 10
def crChar : Char := Char.ofNat 13
def quoteChar : Char := Char.ofNat 34
def apoChar : Char := Char.ofNat 39
def backtickChar : Char := Char.ofNat 96
def backslashChar : Char := Char.ofNat 92

inductive TokenType where
  | Keyword | String | Comment | Number | Function | Type | Normal
deriving DecidableEq

inductive Language where
  | Rust | Python | JavaScript | C | Bash | Plain
deriving DecidableEq

def Language.keywords : Language → List (List Char)
  | .Rust => (["fn", "let", "mut", "const", "static", "if", "else", "match", "for", "while",
      "loop", "break", "continue", "return", "struct", "enum", "trait", "impl", "pub",
      "use", "mod", "crate", "self", "super", "as", "move", "ref", "unsafe", "async",
      "await", "dyn", "where", "type", "in"]).map String.toList
  | .Python => (["def", "class", "if", "elif", "else", "for", "while", "break", "continue",
      "return", "try", "except", "finally", "with", "as", "import", "from", "pass",
      "raise", "assert", "lambda", "yield", "async", "await", "global", "nonlocal",
      "True", "False", "None", "and", "or", "not", "in", "is"]).map String.toList
  | .JavaScript => (["function", "const", "let", "var", "if", "else", "for", "while", "break",
      "continue", "return", "class", "extends", "super", "this", "new", "try", "catch",
      "finally", "throw", "async", "await", "import", "export", "from", "default",
      "switch", "case", "typeof", "instanceof", "delete", "void", "yield"]).map String.toList
  | .C => (["int", "char", "float", "double", "void", "struct", "union", "enum", "if",
      "else", "for", "while", "do", "break", "continue", "return", "switch", "case",
      "default", "sizeof", "typedef", "static", "const", "extern", "auto", "register",
      "volatile", "unsigned", "signed", "long", "short"]).map String.toList
  | .Bash => (["if", "then", "else", "elif", "fi", "for", "while", "do", "done", "case",
      "esac", "function", "return", "exit", "break", "continue", "local", "export",
      "source", "alias", "echo", "read", "test"]).map String.toList
  | .Plain => []

def Language.types : Language → List (List Char)
  | .Rust => (["i8", "i16", "i32", "i64", "i128", "isize", "u8", "u16", "u32", "u64", "u128",
      "usize", "f32", "f64", "bool", "char", "str", "String", "Vec", "Option", "Result",
      "Box", "Rc", "Arc", "Cell", "RefCell"]).map String.toList
  | .C => (["int", "char", "float", "double", "void", "size_t", "uint8_t", "uint16_t",
      "uint32_t"]).map String.toList
  | _ => []

structure SyntaxHighlighter where
  language : Language
deriving DecidableEq

def SyntaxHighlighter.is_comment_start (h : SyntaxHighlighter) (ch : Char) (next : Option Char) : Bool :=
  match h.language with
  | .Rust | .C | .JavaScript => ch = '/' && (next = some '/' || next = some '*')
  | .Python | .Bash => ch = '#'
  | .Plain => false

def SyntaxHighlighter.push_token (h : SyntaxHighlighter) (tok : List Char) : List Char × TokenType :=
  (tok,
    if h.language.keywords.contains tok then TokenType.Keyword
    else if h.language.types.contains tok then TokenType.Type
    else if tok.all (fun c => c.isDigit || c = '.') then TokenType.Number
    else TokenType.Normal)

structure HLState where
  tokens : List (List Char × TokenType)
  current : List Char
  inString : Bool
  stringChar : Char
  inComment : Bool

def hlFinish (h : SyntaxHighlighter) (st : HLState) : List (List Char × TokenType) :=
  if st.inComment then st.tokens ++ [(st.current, TokenType.Comment)]
  else if st.inString then st.tokens ++ [(st.current, TokenType.String)]
  else if st.current.isEmpty then st.tokens
  else st.tokens ++ [h.push_token st.current]

def hlFlush (h : SyntaxHighlighter) (st : HLState) : List (List Char × TokenType) :=
  if st.current.isEmpty then st.tokens else st.tokens ++ [h.push_token st.current]

def hlLoop (h : SyntaxHighlighter) : Nat → List Char → HLState → List (List Char × TokenType)
  | 0, _, st => hlFinish h st
  | _ + 1, [], st => hlFinish h st
  | fuel + 1, ch :: rest, st =>
    if !st.inString && h.is_comment_start ch rest.head? then
      match rest with
      | next :: rest2 =>
        if next = '/' ∨ next = '*' then
          hlLoop h fuel rest2 ⟨hlFlush h st, [ch, next], st.inString, st.stringChar, true⟩
        else
          hlLoop h fuel (next :: rest2) ⟨hlFlush h st, [ch], st.inString, st.stringChar, true⟩
      | [] => hlLoop h fuel [] ⟨hlFlush h st, [ch], st.inString, st.stringChar, true⟩
    else if st.inComment then
      hlLoop h fuel rest { st with current := st.current ++ [ch] }
    else if (ch = quoteChar ∨ ch = apoChar ∨ ch = backtickChar) ∧ st.inString = false then
      hlLoop h fuel rest ⟨hlFlush h st, [ch], true, ch, st.inComment⟩
    else if st.inString then
      if ch = st.stringChar ∧ (st.current ++ [ch]).reverse.get? 1 ≠ some backslashChar then
        hlLoop h fuel rest ⟨st.tokens ++ [(st.current ++ [ch], TokenType.String)], [], false,
          st.stringChar, st.inComment⟩
      else
        hlLoop h fuel rest { st with current := st.current ++ [ch] }
    else if ch.isDigit ∧ (st.current.isEmpty ∨ st.current.all (fun c => c.isDigit || c = '.')) then
      hlLoop h fuel rest { st with current := st.current ++ [ch] }
    else if ch.isAlphanum ∨ ch = '_' then
      hlLoop h fuel rest { st with current := st.current ++ [ch] }
    else
      hlLoop h fuel rest ⟨hlFlush h st ++ [([ch], TokenType.Normal)], [], st.inString, st.stringChar,
        st.inComment⟩

def SyntaxHighlighter.highlight_line (h : SyntaxHighlighter) (line : List Char) :
    List (List Char × TokenType) :=
  if h.language = Language.Plain then [(line, TokenType.Normal)]
  else hlLoop h line.length line ⟨[], [], false, ' ', false⟩

def textOf (ts : List (List Char × TokenType)) : List Char := (ts.map Prod.fst).flatten

theorem textOf_flush (h : SyntaxHighlighter) (st : HLState) :
    textOf (hlFlush h st) = textOf st.tokens ++ st.current := by
  simp only [hlFlush]
  split
  · simp_all [List.isEmpty_iff]
  · simp [textOf, SyntaxHighlighter.push_token]

theorem textOf_finish (h : SyntaxHighlighter) (st : HLState) :
    textOf (hlFinish h st) = textOf st.tokens ++ st.current := by
  simp only [hlFinish]
  split
  · simp [textOf]
  split
  · simp [textOf]
  split
  · simp_all [List.isEmpty_iff]
  · simp [textOf, SyntaxHighlighter.push_token]

theorem textOf_append (a b : List (List Char × TokenType)) :
    textOf (a ++ b) = textOf a ++ textOf b := by
  simp [textOf]

theorem textOf_single (p : List Char × TokenType) : textOf [p] = p.1 := by
  simp [textOf]

theorem hlLoop_text (h : SyntaxHighlighter) (fuel : Nat) (cs : List Char) (st : HLState)
    (hf : cs.length ≤ fuel) :
    textOf (hlLoop h fuel cs st) = textOf st.tokens ++ st.current ++ cs := by
  induction fuel generalizing cs st with
  | zero =>
    have : cs = [] := List.length_eq_zero.mp (Nat.le_zero.mp hf)
    subst this
    simp [hlLoop, textOf_finish]
  | succ fuel ih =>
    match cs with
    | [] => simp [hlLoop, textOf_finish]
    | ch :: rest =>
      have hrest : rest.length ≤ fuel := by simpa using hf
      simp only [hlLoop]
      split
      · split
        · split
          · rw [ih _ _ (by simp at hrest ⊢; omega)]
            simp [textOf_flush]
          · rw [ih _ _ hrest]
            simp [textOf_flush]
        · rw [ih _ _ (by simp)]
          simp [textOf_flush]
      · split
        · rw [ih _ _ hrest]
          simp
        · split
          · rw [ih _ _ hrest]
            simp [textOf_flush]
          · split
            · split
              · rw [ih _ _ hrest]
                simp [textOf_append, textOf]
              · rw [ih _ _ hrest]
                simp
            · split
              · rw [ih _ _ hrest]
                simp
              · split
                · rw [ih _ _ hrest]
                  simp
                · rw [ih _ _ hrest]
                  simp [textOf_append, textOf_flush, textOf_single]

/-- C2: for every input line and every language profile (including Plain), the concatenation
of the texts of the tokens emitted by highlight_line equals the input line exactly, with no
loss, duplication, or reordering. -/
theorem highlight_concat (h : SyntaxHighlighter) (line : List Char) :
    textOf (h.highlight_line line) = line := by
  simp only [SyntaxHighlighter.highlight_line]
  split
  · simp [textOf]
  · rw [hlLoop_text h line.length line _ (Nat.le_refl _)]
    simp [textOf]

inductive EditCommand where
  | InsertChar (row col : Nat) (ch : Char)
  | DeleteChar (row col : Nat) (ch : Char)
  | InsertNewline (row col : Nat)
  | DeleteNewline (row : Nat) (deleted_line : List Char)
  | ClearAll (old_content : List (List Char))
deriving DecidableEq

structure TextBuffer where
  lines : List (List Char)
deriving DecidableEq

def TextBuffer.line_count (b : TextBuffer) : Nat := b.lines.length

def TextBuffer.get_line (b : TextBuffer) (row : Nat) : Option (List Char) := b.lines.get? row

def EditCommand.undo (c : EditCommand) (b : TextBuffer) : TextBuffer :=
  match c with
  | .InsertChar row col _ =>
    if row < b.lines.length ∧ col < (b.lines.getD row []).length then
      ⟨b.lines.set row ((b.lines.getD row []).eraseIdx col)⟩
    else b
  | .DeleteChar row col ch =>
    if row < b.lines.length then
      ⟨b.lines.set row ((b.lines.getD row []).insertIdx col ch)⟩
    else b
  | .InsertNewline row _ =>
    if row + 1 < b.lines.length then
      ⟨(b.lines.eraseIdx (row + 1)).set row ((b.lines.getD row []) ++ (b.lines.getD (row + 1) []))⟩
    else b
  | .DeleteNewline row deleted_line =>
    if row < b.lines.length then
      ⟨((b.lines.set row
          ((b.lines.getD row []).take ((b.lines.getD row []).length - deleted_line.length))).insertIdx
        (row + 1) deleted_line)⟩
    else b
  | .ClearAll old_content => ⟨old_content⟩

def EditCommand.redo (c : EditCommand) (b : TextBuffer) : TextBuffer :=
  match c with
  | .InsertChar row col ch =>
    if row < b.lines.length then
      ⟨b.lines.set row ((b.lines.getD row []).insertIdx col ch)⟩
    else b
  | .DeleteChar row col _ =>
    if row < b.lines.length ∧ col < (b.lines.getD row []).length then
      ⟨b.lines.set row ((b.lines.getD row []).eraseIdx col)⟩
    else b
  | .InsertNewline row col =>
    if row < b.lines.length then
      ⟨((b.lines.set row ((b.lines.getD row []).take col)).insertIdx (row + 1)
        ((b.lines.getD row []).drop col))⟩
    else b
  | .DeleteNewline row _ =>
    if 0 < row ∧ row < b.lines.length then
      ⟨(b.lines.eraseIdx row).set (row - 1) ((b.lines.getD (row - 1) []) ++ (b.lines.getD row []))⟩
    else b
  | .ClearAll _ => ⟨[[]]⟩

def TextBuffer.new : TextBuffer := ⟨[[]]⟩

def stripCR (l : List Char) : List Char :=
  if l.getLast? = some crChar then l.dropLast else l

def rustLinesGo (acc : List Char) : List Char → List (List Char)
  | [] => if acc.isEmpty then [] else [acc]
  | c :: rest =>
    if c = nlChar then stripCR acc :: rustLinesGo [] rest
    else rustLinesGo (acc ++ [c]) rest

def rustLines (s : List Char) : List (List Char) := rustLinesGo [] s

def TextBuffer.from_string (content : List Char) : TextBuffer :=
  let ls := rustLines content
  ⟨if ls.isEmpty then [[]] else ls⟩

def joinNl : List (List Char) → List Char
  | [] => []
  | [l] => l
  | l :: rest => l ++ nlChar :: joinNl rest

def TextBuffer.to_string (b : TextBuffer) : List Char := joinNl b.lines

def TextBuffer.insert_char (b : TextBuffer) (row col : Nat) (ch : Char) : TextBuffer :=
  if row < b.lines.length then
    ⟨b.lines.set row ((b.lines.getD row []).insertIdx col ch)⟩
  else b

def TextBuffer.delete_char (b : TextBuffer) (row col : Nat) : Option Char × TextBuffer :=
  if row < b.lines.length ∧ 0 < col ∧ col ≤ (b.lines.getD row []).length then
    ((b.lines.getD row []).get? (col - 1),
      ⟨b.lines.set row ((b.lines.getD row []).eraseIdx (col - 1))⟩)
  else (none, b)

def TextBuffer.insert_newline (b : TextBuffer) (row col : Nat) : TextBuffer :=
  if row < b.lines.length then
    ⟨((b.lines.set row ((b.lines.getD row []).take col)).insertIdx (row + 1)
      ((b.lines.getD row []).drop col))⟩
  else b

def TextBuffer.delete_newline (b : TextBuffer) (row : Nat) : Option (List Char) × TextBuffer :=
  if 0 < row ∧ row < b.lines.length then
    (some (b.lines.getD row []),
      ⟨(b.lines.eraseIdx row).set (row - 1) ((b.lines.getD (row - 1) []) ++ (b.lines.getD row []))⟩)
  else (none, b)

def strFind (pat : List Char) (hay : List Char) : Option Nat :=
  if pat.isPrefixOf hay then some 0
  else
    match hay with
    | [] => none
    | _ :: t => (strFind pat t).map (· + 1)

def fwdSearch (q : List Char) (startRow startCol : Nat) : Nat → List (List Char) → Option (Nat × Nat)
  | _, [] => none
  | row, line :: rest =>
    let searchCol := if row = startRow then startCol else 0
    match strFind q (line.drop searchCol) with
    | some col => some (row, searchCol + col)
    | none => fwdSearch q startRow startCol (row + 1) rest

def wrapSearch (q : List Char) (startRow startCol : Nat) : Nat → List (List Char) → Option (Nat × Nat)
  | _, [] => none
  | row, line :: rest =>
    if startRow < row then none
    else
      let endCol := if row = startRow then startCol else line.length
      match strFind q (line.take endCol) with
      | some col => some (row, col)
      | none => wrapSearch q startRow startCol (row + 1) rest

def TextBuffer.search (b : TextBuffer) (q : List Char) (start_row start_col : Nat) :
    Option (Nat × Nat) :=
  if q.isEmpty then none
  else
    match fwdSearch q start_row start_col start_row (b.lines.drop start_row) with
    | some p => some p
    | none => wrapSearch q start_row start_col 0 b.lines

structure Cursor where
  x : Nat
  y : Nat
deriving DecidableEq

structure Pane where
  buffer : TextBuffer
  cursor : Cursor
  offset_y : Nat
  undo_stack : List EditCommand
  redo_stack : List EditCommand
  current_file : Option (List Char)
  modified : Bool
  search_query : List Char
  last_search_pos : Option (Nat × Nat)
  language : Language
deriving DecidableEq

def Pane.new : Pane :=
  ⟨TextBuffer.new, ⟨0, 0⟩, 0, [], [], none, false, [], none, Language.Plain⟩

def Pane.execute_command (p : Pane) (c : EditCommand) : Pane :=
  { p with
    buffer := c.redo p.buffer,
    undo_stack := c :: p.undo_stack,
    redo_stack := [],
    modified := true }

def Pane.undo (p : Pane) : Pane :=
  match p.undo_stack with
  | [] => p
  | c :: rest =>
    { p with
      buffer := c.undo p.buffer,
      undo_stack := rest,
      redo_stack := c :: p.redo_stack,
      modified := !rest.isEmpty }

def Pane.redo (p : Pane) : Pane :=
  match p.redo_stack with
  | [] => p
  | c :: rest =>
    { p with
      buffer := c.redo p.buffer,
      redo_stack := rest,
      undo_stack := c :: p.undo_stack,
      modified := true }

def Pane.adjust_scroll (p : Pane) (visible_lines : Nat) : Pane :=
  if p.cursor.y < p.offset_y then { p with offset_y := p.cursor.y }
  else if p.offset_y + visible_lines ≤ p.cursor.y then
    { p with offset_y := p.cursor.y - visible_lines + 1 }
  else p

def Pane.perform_search (p : Pane) (input : List Char) (visible_lines : Nat) : Pane :=
  if input.isEmpty then p
  else
    let p1 : Pane := { p with search_query := input }
    let startPos : Nat × Nat :=
      match p1.last_search_pos with
      | some (row, col) =>
        if col + 1 < ((p1.buffer.get_line row).map List.length).getD 0 then (row, col + 1)
        else if row + 1 < p1.buffer.line_count then (row + 1, 0)
        else (0, 0)
      | none => (p1.cursor.y, p1.cursor.x)
    match p1.buffer.search p1.search_query startPos.1 startPos.2 with
    | some (row, col) =>
      Pane.adjust_scroll
        { p1 with cursor := ⟨col, row⟩, last_search_pos := some (row, col) } visible_lines
    | none => { p1 with last_search_pos := none }

structure Editor where
  panes : List Pane
  active_pane : Nat
deriving DecidableEq

def Editor.activePane (e : Editor) : Pane := e.panes.getD e.active_pane Pane.new

def Editor.updateActive (e : Editor) (f : Pane → Pane) : Editor :=
  { e with panes := e.panes.set e.active_pane (f e.activePane) }

inductive NormalAction where
  | insertChar (c : Char)
  | enter
  | backspace
  | moveLeft
  | moveRight
  | moveUp
  | moveDown
  | home
  | endKey
  | pageUp
  | pageDown
  | undoKey
  | redoKey
  | search (query : List Char)
  | findNext
deriving DecidableEq

def paneStep (a : NormalAction) (visible_lines : Nat) (p : Pane) : Pane :=
  match a with
  | .insertChar c =>
    let p1 := p.execute_command (.InsertChar p.cursor.y p.cursor.x c)
    { p1 with cursor := ⟨p1.cursor.x + 1, p1.cursor.y⟩ }
  | .enter =>
    let p1 := p.execute_command (.InsertNewline p.cursor.y p.cursor.x)
    Pane.adjust_scroll { p1 with cursor := ⟨0, p1.cursor.y + 1⟩ } visible_lines
  | .backspace =>
    if 0 < p.cursor.x then
      match (p.buffer.get_line p.cursor.y).bind (fun line => line.get? (p.cursor.x - 1)) with
      | some ch =>
        let p1 := p.execute_command (.DeleteChar p.cursor.y (p.cursor.x - 1) ch)
        { p1 with cursor := ⟨p1.cursor.x - 1, p1.cursor.y⟩ }
      | none => p
    else if 0 < p.cursor.y then
      let prevLen := ((p.buffer.get_line (p.cursor.y - 1)).map List.length).getD 0
      match p.buffer.get_line p.cursor.y with
      | some deleted =>
        let p1 := p.execute_command (.DeleteNewline p.cursor.y deleted)
        Pane.adjust_scroll { p1 with cursor := ⟨prevLen, p1.cursor.y - 1⟩ } visible_lines
      | none => p
    else p
  | .moveLeft =>
    if 0 < p.cursor.x then { p with cursor := ⟨p.cursor.x - 1, p.cursor.y⟩ }
    else if 0 < p.cursor.y then
      let len := ((p.buffer.get_line (p.cursor.y - 1)).map List.length).getD 0
      Pane.adjust_scroll { p with cursor := ⟨len, p.cursor.y - 1⟩ } visible_lines
    else p
  | .moveRight =>
    match p.buffer.get_line p.cursor.y with
    | some line =>
      if p.cursor.x < line.length then { p with cursor := ⟨p.cursor.x + 1, p.cursor.y⟩ }
      else if p.cursor.y < p.buffer.line_count - 1 then
        Pane.adjust_scroll { p with cursor := ⟨0, p.cursor.y + 1⟩ } visible_lines
      else p
    | none => p
  | .moveUp =>
    if 0 < p.cursor.y then
      let len := ((p.buffer.get_line (p.cursor.y - 1)).map List.length).getD 0
      let x1 := if len < p.cursor.x then len else p.cursor.x
      Pane.adjust_scroll { p with cursor := ⟨x1, p.cursor.y - 1⟩ } visible_lines
    else p
  | .moveDown =>
    if p.cursor.y < p.buffer.line_count - 1 then
      let len := ((p.buffer.get_line (p.cursor.y + 1)).map List.length).getD 0
      let x1 := if len < p.cursor.x then len else p.cursor.x
      Pane.adjust_scroll { p with cursor := ⟨x1, p.cursor.y + 1⟩ } visible_lines
    else p
  | .home => { p with cursor := ⟨0, p.cursor.y⟩ }
  | .endKey =>
    match p.buffer.get_line p.cursor.y with
    | some line => { p with cursor := ⟨line.length, p.cursor.y⟩ }
    | none => p
  | .pageUp =>
    Pane.adjust_scroll { p with cursor := ⟨p.cursor.x, p.cursor.y - visible_lines⟩ } visible_lines
  | .pageDown =>
    Pane.adjust_scroll
      { p with cursor := ⟨p.cursor.x, min (p.cursor.y + visible_lines) (p.buffer.line_count - 1)⟩ }
      visible_lines
  | .undoKey => p.undo
  | .redoKey => p.redo
  | .search query => p.perform_search query visible_lines
  | .findNext =>
    if p.search_query.isEmpty then p else p.perform_search p.search_query visible_lines

def Editor.process_normal_mode (e : Editor) (a : NormalAction) (visible_lines : Nat) : Editor :=
  e.updateActive (paneStep a visible_lines)

inductive PaneOp where
  | exec (c : EditCommand)
  | undoOp
  | redoOp

def applyPaneOp (p : Pane) : PaneOp → Pane
  | .exec c => p.execute_command c
  | .undoOp => p.undo
  | .redoOp => p.redo

def applyPaneOps (p : Pane) (ops : List PaneOp) : Pane := ops.foldl applyPaneOp p

inductive EditAction where
  | insChar (row col : Nat) (ch : Char)
  | delChar (row col : Nat)
  | insNl (row col : Nat)
  | delNl (row : Nat)
  | execInsertChar (row col : Nat) (ch : Char)
  | execDeleteChar (row col : Nat) (ch : Char)
  | execInsertNewline (row col : Nat)
  | execDeleteNewline (row : Nat) (deleted : List Char)
  | execClearAll
  | undoOp
  | redoOp

def applyEditAction (p : Pane) : EditAction → Pane
  | .insChar r c ch => { p with buffer := p.buffer.insert_char r c ch }
  | .delChar r c => { p with buffer := (p.buffer.delete_char r c).2 }
  | .insNl r c => { p with buffer := p.buffer.insert_newline r c }
  | .delNl r => { p with buffer := (p.buffer.delete_newline r).2 }
  | .execInsertChar r c ch => p.execute_command (.InsertChar r c ch)
  | .execDeleteChar r c ch => p.execute_command (.DeleteChar r c ch)
  | .execInsertNewline r c => p.execute_command (.InsertNewline r c)
  | .execDeleteNewline r deleted => p.execute_command (.DeleteNewline r deleted)
  | .execClearAll => p.execute_command (.ClearAll p.buffer.lines)
  | .undoOp => p.undo
  | .redoOp => p.redo

def applyEditActions (p : Pane) (acts : List EditAction) : Pane := acts.foldl applyEditAction p

def paneWith (b : TextBuffer) : Pane := { Pane.new with buffer := b }

def matchAt (lines : List (List Char)) (q : List Char) (r c : Nat) : Prop :=
  r < lines.length ∧ q.isPrefixOf ((lines.getD r []).drop c) = true

def fwdEligible (sr sc r c : Nat) : Prop :=
  sr < r ∨ (r = sr ∧ sc ≤ c)

def wrapEligible (q : List Char) (sr sc r c : Nat) : Prop :=
  r < sr ∨ (r = sr ∧ c + q.length ≤ sc)

def scanPass (sr sc r c : Nat) : Nat :=
  if sr < r ∨ (r = sr ∧ sc ≤ c) then 0 else 1

def scanOrderLE (sr sc r c r' c' : Nat) : Prop :=
  scanPass sr sc r c < scanPass sr sc r' c' ∨
    (scanPass sr sc r c = scanPass sr sc r' c' ∧ (r < r' ∨ (r = r' ∧ c ≤ c')))

/-- C1: for any sequence of executed commands, undoing each in reverse order restores the
pre-sequence document and redoing restores the post-sequence document, for every command kind
including DeleteNewline.  This fails on the code: `EditCommand.undo` for `DeleteNewline row _`
truncates line `row` and re-inserts the deleted line at `row + 1`, instead of truncating line
`row - 1` and re-inserting at `row`.  Executing `DeleteNewline 1 "b"` on ["a","b","c"] joins to
["ab","c"], but undo then yields ["ab","","b"] instead of ["a","b","c"]; on ["hello","world"]
the join yields ["helloworld"] and undo is a silent no-op (the guard `row < lines.len()` fails),
so the document is not restored either. -/
theorem deleteNewline_undo_not_inverse :
    ((paneWith ⟨["a".toList, "b".toList, "c".toList]⟩).execute_command
        (EditCommand.DeleteNewline 1 "b".toList)).buffer =
      ⟨["ab".toList, "c".toList]⟩ ∧
    (((paneWith ⟨["a".toList, "b".toList, "c".toList]⟩).execute_command
        (EditCommand.DeleteNewline 1 "b".toList)).undo).buffer =
      ⟨["ab".toList, [], "b".toList]⟩ ∧
    (((paneWith ⟨["a".toList, "b".toList, "c".toList]⟩).execute_command
        (EditCommand.DeleteNewline 1 "b".toList)).undo).buffer ≠
      (⟨["a".toList, "b".toList, "c".toList]⟩ : TextBuffer) ∧
    (((paneWith ⟨["hello".toList, "world".toList]⟩).execute_command
        (EditCommand.DeleteNewline 1 "world".toList)).undo).buffer =
      ⟨["helloworld".toList]⟩ ∧
    (((paneWith ⟨["hello".toList, "world".toList]⟩).execute_command
        (EditCommand.DeleteNewline 1 "world".toList)).undo).buffer ≠
      (⟨["hello".toList, "world".toList]⟩ : TextBuffer) := by
  decide

/-- C5 counterexample: on the Rust profile and the line "////", the scanner enters the
in-comment state at the first marker, yet the remaining characters are NOT all appended to one
accumulator: the comment-start check runs before the in-comment check, so the second "//"
flushes the pending accumulator "//" through the normal keyword/type/number classifier (as a
Normal token) and restarts the comment.  The line therefore does not end with a single Comment
token covering everything from the first marker to the end of the line. -/
theorem comment_restart_cex :
    (⟨Language.Rust⟩ : SyntaxHighlighter).highlight_line "////".toList =
      [("//".toList, TokenType.Normal), ("//".toList, TokenType.Comment)] ∧
    (⟨Language.Rust⟩ : SyntaxHighlighter).highlight_line "////".toList ≠
      [("////".toList, TokenType.Comment)] := by
  decide

/-- C4 counterexample: with document ["abcabc"], query "abc" and start position (0,0), the
document has matches at (0,0) and (0,3).  The claim says a match exactly at the start position
is only eligible on the wrap-around pass and the first match strictly after the start wins, so
it predicts (0,3).  The code's forward pass scans `line[start_col..]`, which includes a match
beginning exactly at start_col, so search returns (0,0). -/
theorem search_start_match_cex :
    TextBuffer.search ⟨["abcabc".toList]⟩ "abc".toList 0 0 = some (0, 0) ∧
    TextBuffer.search ⟨["abcabc".toList]⟩ "abc".toList 0 0 ≠ some (0, 3) := by
  decide

/-- C7: with document lines ["abcabc","xyz"] and query "abc", perform_search starting from a
fresh pane (cursor (0,0), no previous match) finds (0,0); performing the search again from last
match (0,0) finds (0,3); performing it again wraps around and finds (0,0) again, so repeated
find-next cycles with period 2, the total match count. -/
theorem search_wraparound_scenario :
    (let p0 := paneWith ⟨["abcabc".toList, "xyz".toList]⟩
     let p1 := p0.perform_search "abc".toList 22
     let p2 := p1.perform_search "abc".toList 22
     let p3 := p2.perform_search "abc".toList 22
     p1.last_search_pos = some (0, 0) ∧ p2.last_search_pos = some (0, 3) ∧
       p3.last_search_pos = some (0, 0) ∧ p1.cursor = ⟨0, 0⟩ ∧ p2.cursor = ⟨3, 0⟩ ∧
       p3.cursor = ⟨0, 0⟩) := by
  decide

/-- C10 counterexample: the buffer with the single line "\n" has a non-empty last line, yet
to_string gives the text "\n" and from_string splits it into a single empty line, so the round
trip does not reproduce the buffer: lines may themselves contain line-terminator characters,
and for those the round trip is lossy even though the last line is non-empty. -/
theorem roundtrip_cex :
    TextBuffer.from_string (TextBuffer.to_string ⟨[[nlChar]]⟩) = TextBuffer.new ∧
    TextBuffer.from_string (TextBuffer.to_string ⟨[[nlChar]]⟩) ≠ ⟨[[nlChar]]⟩ ∧
    [nlChar] ≠ ([] : List Char) := by
  decide

theorem modified_inv (ops : List PaneOp) (p : Pane) (h : p.modified = !p.undo_stack.isEmpty) :
    (applyPaneOps p ops).modified = !(applyPaneOps p ops).undo_stack.isEmpty := by
  induction ops generalizing p with
  | nil => exact h
  | cons op rest ih =>
    apply ih
    match op with
    | .exec c => simp [applyPaneOp, Pane.execute_command]
    | .undoOp =>
      simp only [applyPaneOp, Pane.undo]
      split
      · exact h
      · simp
    | .redoOp =>
      simp only [applyPaneOp, Pane.redo]
      split
      · exact h
      · simp

/-- C3: after any sequence of execute/undo/redo operations starting from a fresh Pane, the
modified flag is true exactly when the undo stack is non-empty. -/
theorem modified_iff_undo_nonempty (ops : List PaneOp) :
    (applyPaneOps Pane.new ops).modified = true ↔ (applyPaneOps Pane.new ops).undo_stack ≠ [] := by
  rw [modified_inv ops Pane.new (by decide)]
  cases (applyPaneOps Pane.new ops).undo_stack <;> simp

def cmdOK : EditCommand → Bool
  | .ClearAll old_content => !old_content.isEmpty
  | _ => true

def paneOK (p : Pane) : Prop :=
  p.buffer.lines ≠ [] ∧ (∀ c ∈ p.undo_stack, cmdOK c = true) ∧ (∀ c ∈ p.redo_stack, cmdOK c = true)

theorem set_ne_nil {α : Type} (l : List α) (i : Nat) (a : α) (h : l ≠ []) : l.set i a ≠ [] := by
  intro hc
  apply h
  have h2 := congrArg List.length hc
  simp only [List.length_set, List.length_nil] at h2
  exact List.length_eq_zero.mp h2

theorem insertIdx_ne_nil {α : Type} (l : List α) (n : Nat) (a : α) (h : l ≠ []) :
    l.insertIdx n a ≠ [] := by
  match l, n with
  | [], _ => exact absurd rfl h
  | x :: xs, 0 => simp [List.insertIdx]
  | x :: xs, n + 1 => simp [List.insertIdx_succ_cons]

theorem eraseIdx_ne_nil {α : Type} (l : List α) (i : Nat) (h : 2 ≤ l.length) :
    l.eraseIdx i ≠ [] := by
  have := List.length_eraseIdx (l := l) (i := i)
  intro hc
  rw [hc] at this
  simp at this
  split at this <;> omega

theorem redo_lines_ne_nil (c : EditCommand) (b : TextBuffer) (hb : b.lines ≠ [])
    (hc : cmdOK c = true) : (c.redo b).lines ≠ [] := by
  cases c with
  | InsertChar row col ch =>
    simp only [EditCommand.redo]
    split
    · exact set_ne_nil _ _ _ hb
    · exact hb
  | DeleteChar row col ch =>
    simp only [EditCommand.redo]
    split
    · exact set_ne_nil _ _ _ hb
    · exact hb
  | InsertNewline row col =>
    simp only [EditCommand.redo]
    split
    · exact insertIdx_ne_nil _ _ _ (set_ne_nil _ _ _ hb)
    · exact hb
  | DeleteNewline row deleted_line =>
    simp only [EditCommand.redo]
    split
    · next hg =>
      apply set_ne_nil
      apply eraseIdx_ne_nil
      omega
    · exact hb
  | ClearAll old_content =>
    simp [EditCommand.redo]

theorem undo_lines_ne_nil (c : EditCommand) (b : TextBuffer) (hb : b.lines ≠ [])
    (hc : cmdOK c = true) : (c.undo b).lines ≠ [] := by
  cases c with
  | InsertChar row col ch =>
    simp only [EditCommand.undo]
    split
    · exact set_ne_nil _ _ _ hb
    · exact hb
  | DeleteChar row col ch =>
    simp only [EditCommand.undo]
    split
    · exact set_ne_nil _ _ _ hb
    · exact hb
  | InsertNewline row col =>
    simp only [EditCommand.undo]
    split
    · next hg =>
      apply set_ne_nil
      apply eraseIdx_ne_nil
      omega
    · exact hb
  | DeleteNewline row deleted_line =>
    simp only [EditCommand.undo]
    split
    · exact insertIdx_ne_nil _ _ _ (set_ne_nil _ _ _ hb)
    · exact hb
  | ClearAll old_content =>
    simp only [EditCommand.undo]
    simp only [cmdOK, Bool.not_eq_true'] at hc
    exact fun h2 => by simp [h2] at hc

theorem paneOK_step (p : Pane) (a : EditAction) (h : paneOK p) : paneOK (applyEditAction p a) := by
  obtain ⟨hb, hu, hr⟩ := h
  cases a with
  | insChar row col ch =>
    refine ⟨?_, hu, hr⟩
    simp only [applyEditAction, TextBuffer.insert_char]
    split
    · exact set_ne_nil _ _ _ hb
    · exact hb
  | delChar row col =>
    refine ⟨?_, hu, hr⟩
    simp only [applyEditAction, TextBuffer.delete_char]
    split
    · exact set_ne_nil _ _ _ hb
    · exact hb
  | insNl row col =>
    refine ⟨?_, hu, hr⟩
    simp only [applyEditAction, TextBuffer.insert_newline]
    split
    · exact insertIdx_ne_nil _ _ _ (set_ne_nil _ _ _ hb)
    · exact hb
  | delNl row =>
    refine ⟨?_, hu, hr⟩
    simp only [applyEditAction, TextBuffer.delete_newline]
    split
    · next hg =>
      apply set_ne_nil
      apply eraseIdx_ne_nil
      omega
    · exact hb
  | execInsertChar row col ch =>
    refine ⟨redo_lines_ne_nil _ _ hb rfl, ?_, ?_⟩
    · intro c hc
      rcases List.mem_cons.mp hc with h1 | h1
      · subst h1; rfl
      · exact hu c h1
    · intro c hc
      exact absurd hc (List.not_mem_nil c)
  | execDeleteChar row col ch =>
    refine ⟨redo_lines_ne_nil _ _ hb rfl, ?_, ?_⟩
    · intro c hc
      rcases List.mem_cons.mp hc with h1 | h1
      · subst h1; rfl
      · exact hu c h1
    · intro c hc
      exact absurd hc (List.not_mem_nil c)
  | execInsertNewline row col =>
    refine ⟨redo_lines_ne_nil _ _ hb rfl, ?_, ?_⟩
    · intro c hc
      rcases List.mem_cons.mp hc with h1 | h1
      · subst h1; rfl
      · exact hu c h1
    · intro c hc
      exact absurd hc (List.not_mem_nil c)
  | execDeleteNewline row deleted =>
    refine ⟨redo_lines_ne_nil _ _ hb rfl, ?_, ?_⟩
    · intro c hc
      rcases List.mem_cons.mp hc with h1 | h1
      · subst h1; rfl
      · exact hu c h1
    · intro c hc
      exact absurd hc (List.not_mem_nil c)
  | execClearAll =>
    have hok : cmdOK (EditCommand.ClearAll p.buffer.lines) = true := by
      simp [cmdOK, List.isEmpty_iff, hb]
    refine ⟨redo_lines_ne_nil _ _ hb hok, ?_, ?_⟩
    · intro c hc
      rcases List.mem_cons.mp hc with h1 | h1
      · subst h1; exact hok
      · exact hu c h1
    · intro c hc
      exact absurd hc (List.not_mem_nil c)
  | undoOp =>
    simp only [applyEditAction, Pane.undo]
    split
    · exact ⟨hb, hu, hr⟩
    · next c rest heq =>
      have hcm : cmdOK c = true := hu c (heq ▸ List.mem_cons_self c rest)
      refine ⟨undo_lines_ne_nil _ _ hb hcm, ?_, ?_⟩
      · intro d hd
        exact hu d (heq ▸ List.mem_cons_of_mem c hd)
      · intro d hd
        rcases List.mem_cons.mp hd with h1 | h1
        · subst h1; exact hcm
        · exact hr d h1
  | redoOp =>
    simp only [applyEditAction, Pane.redo]
    split
    · exact ⟨hb, hu, hr⟩
    · next c rest heq =>
      have hcm : cmdOK c = true := hr c (heq ▸ List.mem_cons_self c rest)
      refine ⟨redo_lines_ne_nil _ _ hb hcm, ?_, ?_⟩
      · intro d hd
        rcases List.mem_cons.mp hd with h1 | h1
        · subst h1; exact hcm
        · exact hu d h1
      · intro d hd
        exact hr d (heq ▸ List.mem_cons_of_mem c hd)

theorem paneOK_fold (acts : List EditAction) (p : Pane) (h : paneOK p) :
    paneOK (applyEditActions p acts) := by
  induction acts generalizing p with
  | nil => exact h
  | cons a rest ih => exact ih _ (paneOK_step p a h)

/-- C6: starting from a Document created empty or from a string, any sequence of Document
mutations (the four primitives, execution of any edit command where ClearAll captures the prior
content as the spec prescribes, and command undo/redo) leaves at least one line in the
document; an empty document is represented as a single empty line. -/
theorem line_count_floor (acts : List EditAction) (init : TextBuffer)
    (h : init = TextBuffer.new ∨ ∃ s, init = TextBuffer.from_string s) :
    1 ≤ (applyEditActions (paneWith init) acts).buffer.line_count := by
  have hinit : init.lines ≠ [] := by
    rcases h with h | ⟨s, h⟩
    · subst h; simp [TextBuffer.new]
    · subst h
      simp only [TextBuffer.from_string]
      split
      · simp
      · next hns => simpa [List.isEmpty_iff] using hns
  have hOK : paneOK (applyEditActions (paneWith init) acts) :=
    paneOK_fold acts _ ⟨hinit, by simp [paneWith, Pane.new], by simp [paneWith, Pane.new]⟩
  have := hOK.1
  simp only [TextBuffer.line_count]
  cases hh : (applyEditActions (paneWith init) acts).buffer.lines with
  | nil => exact absurd hh this
  | cons x xs => simp

/-- C6 witness: a concrete run exercising newline deletion, clear-all and undo from the empty
document keeps the line count at least one. -/
theorem line_count_floor_witness :
    1 ≤ (applyEditActions (paneWith TextBuffer.new)
      [EditAction.insChar 0 0 'a', EditAction.execInsertNewline 0 1, EditAction.execClearAll,
        EditAction.undoOp, EditAction.undoOp, EditAction.delNl 1, EditAction.redoOp]).buffer.line_count :=
  line_count_floor _ _ (Or.inl rfl)

/-- C8: every editing action dispatched in normal mode (insert character, enter, backspace,
cursor movement, undo, redo, search, find-next) goes through the active pane only; with two
panes open, the pane that is not active keeps all of its state (document lines, cursor,
viewport offset, undo and redo stacks, file identity, modified flag, search state) unchanged. -/
theorem inactive_pane_untouched (a : NormalAction) (visible_lines : Nat) (e : Editor) (i : Nat)
    (_htwo : e.panes.length = 2) (_hi : i < 2) (hne : i ≠ e.active_pane) :
    (e.process_normal_mode a visible_lines).panes.get? i = e.panes.get? i := by
  simp only [Editor.process_normal_mode, Editor.updateActive]
  rw [List.get?_eq_getElem?, List.get?_eq_getElem?]
  exact List.getElem?_set_ne (fun h => hne h.symm)

/-- C8 witness: with two panes and pane 0 active, inserting a character leaves pane 1 exactly
as it was. -/
theorem inactive_pane_untouched_witness :
    (Editor.process_normal_mode
        ⟨[Pane.new, paneWith ⟨["xyz".toList]⟩], 0⟩ (NormalAction.insertChar 'a') 22).panes.get? 1 =
      (⟨[Pane.new, paneWith ⟨["xyz".toList]⟩], 0⟩ : Editor).panes.get? 1 :=
  inactive_pane_untouched (NormalAction.insertChar 'a') 22 _ 1 rfl (by decide) (by decide)

/-- C9: delete_char removes and returns the character immediately before col exactly when the
row is valid and col is between 1 and the line length; when col is 0 or the row is invalid (or
col exceeds the line length) it returns nothing and leaves the document unchanged. -/
theorem delete_char_spec (b : TextBuffer) (row col : Nat) :
    ((b.delete_char row col).1.isSome ↔
      row < b.line_count ∧ 1 ≤ col ∧ col ≤ (b.lines.getD row []).length) ∧
    (∀ ch, (b.delete_char row col).1 = some ch →
      (b.lines.getD row []).get? (col - 1) = some ch ∧
      (b.delete_char row col).2.lines = b.lines.set row ((b.lines.getD row []).eraseIdx (col - 1))) ∧
    ((col = 0 ∨ b.line_count ≤ row ∨ (b.lines.getD row []).length < col) →
      (b.delete_char row col) = (none, b)) := by
  refine ⟨?_, ?_, ?_⟩
  · simp only [TextBuffer.delete_char, TextBuffer.line_count]
    split
    · next hcond =>
      have hlt : col - 1 < (b.lines.getD row []).length := by omega
      simp only [List.get?_eq_getElem?, List.getElem?_eq_getElem hlt, Option.isSome_some,
        true_iff]
      exact hcond
    · next hcond =>
      simpa using hcond
  · intro ch hch
    simp only [TextBuffer.delete_char] at hch ⊢
    split at hch
    · next hcond =>
      rw [if_pos hcond]
      exact ⟨hch, rfl⟩
    · next hcond =>
      simp at hch
  · intro hbad
    simp only [TextBuffer.delete_char, TextBuffer.line_count] at hbad ⊢
    split
    · next hcond => omega
    · rfl

def noCommentStart (h : SyntaxHighlighter) : List Char → Bool
  | [] => true
  | c :: rest => !h.is_comment_start c rest.head? && noCommentStart h rest

/-- C5 amended: once the scanner is in the in-comment state (still fuelled for the remaining
characters and not inside a string), and the comment-start pattern does not occur again among
the remaining characters, every remaining character is appended to the pending accumulator and
the scan ends with the pending tokens followed by exactly one Comment token covering the
accumulator and the rest of the line.  (Without that proviso the comment-start re-match flushes
the accumulator through the normal classifier and restarts the comment, as the counterexample
shows.) -/
theorem comment_terminal (h : SyntaxHighlighter) (fuel : Nat) (cs : List Char) (st : HLState)
    (hf : cs.length ≤ fuel) (hcm : st.inComment = true) (hs : st.inString = false)
    (hn : noCommentStart h cs = true) :
    hlLoop h fuel cs st = st.tokens ++ [(st.current ++ cs, TokenType.Comment)] := by
  induction fuel generalizing cs st with
  | zero =>
    have : cs = [] := List.length_eq_zero.mp (Nat.le_zero.mp hf)
    subst this
    simp [hlLoop, hlFinish, hcm]
  | succ fuel ih =>
    match cs with
    | [] => simp [hlLoop, hlFinish, hcm]
    | ch :: rest =>
      have hrest : rest.length ≤ fuel := by simpa using hf
      simp only [noCommentStart, Bool.and_eq_true, Bool.not_eq_true'] at hn
      simp only [hlLoop, hn.1, Bool.and_false, Bool.false_eq_true, if_false, hcm, if_true]
      rw [ih rest ⟨st.tokens, st.current ++ [ch], st.inString, st.stringChar, true⟩ hrest rfl hs
        hn.2]
      simp

/-- C5 amended witness: from the in-comment state with accumulator "//" and remaining text "x",
the scan produces the single Comment token "//x". -/
theorem comment_terminal_witness :
    hlLoop ⟨Language.Rust⟩ 1 "x".toList ⟨[], "//".toList, false, ' ', true⟩ =
      [] ++ [("//".toList ++ "x".toList, TokenType.Comment)] :=
  comment_terminal ⟨Language.Rust⟩ 1 "x".toList ⟨[], "//".toList, false, ' ', true⟩ (by decide)
    rfl rfl (by decide)

/-- C4 amended: search scans forward from (start_row, start_col) inclusive, then wraps to scan
rows 0..start_row where in row start_row only matches lying entirely before start_col are
eligible; the first match at-or-after the start position in this cyclic order wins.  In
particular a match located exactly at the start position is returned immediately by the forward
pass (not the wrap-around pass): if the query is non-empty, the start row is in bounds and the
query occurs at exactly (start_row, start_col), then search returns (start_row, start_col). -/
theorem search_finds_match_at_start (lines : List (List Char)) (q : List Char) (sr sc : Nat)
    (hq : q ≠ []) (hr : sr < lines.length) (hm : q.isPrefixOf ((lines.getD sr []).drop sc) = true) :
    TextBuffer.search ⟨lines⟩ q sr sc = some (sr, sc) := by
  have hq' : q.isEmpty = false := by
    cases q with
    | nil => exact absurd rfl hq
    | cons a l => rfl
  have hdrop : lines.drop sr = lines.getD sr [] :: lines.drop (sr + 1) := by
    rw [List.getD_eq_getElem?_getD, List.getElem?_eq_getElem hr]
    exact List.drop_eq_getElem_cons hr
  have hfind : strFind q ((lines.getD sr []).drop sc) = some 0 := by
    rw [strFind.eq_def, if_pos hm]
  rw [List.getD_eq_getElem?_getD] at hfind
  simp only [TextBuffer.search, hq', Bool.false_eq_true, if_false, hdrop, fwdSearch]
  simp [hfind]

/-- C4 amended witness: with document ["abcabc"] and query "abc" matching exactly at the start
position (0,0), search returns (0,0). -/
theorem search_finds_match_at_start_witness :
    TextBuffer.search ⟨["abcabc".toList]⟩ "abc".toList 0 0 = some (0, 0) :=
  search_finds_match_at_start ["abcabc".toList] "abc".toList 0 0 (by decide) (by decide)
    (by decide)

def noMidCR : List (List Char) → Bool
  | [] => true
  | [_] => true
  | l :: rest => (l.getLast? != some crChar) && noMidCR rest

theorem rustLinesGo_through (l : List Char) (acc rest : List Char)
    (hl : ∀ c ∈ l, c ≠ nlChar) :
    rustLinesGo acc (l ++ nlChar :: rest) = stripCR (acc ++ l) :: rustLinesGo [] rest := by
  induction l generalizing acc with
  | nil => simp [rustLinesGo]
  | cons c l' ih =>
    have hc : c ≠ nlChar := hl c (List.mem_cons_self c l')
    simp only [List.cons_append, rustLinesGo, if_neg hc, List.append_eq]
    rw [ih (acc ++ [c]) (fun d hd => hl d (List.mem_cons_of_mem c hd))]
    simp

theorem rustLinesGo_last (l acc : List Char) (hl : ∀ c ∈ l, c ≠ nlChar) :
    rustLinesGo acc l = if (acc ++ l).isEmpty then [] else [acc ++ l] := by
  induction l generalizing acc with
  | nil => simp [rustLinesGo]
  | cons c l' ih =>
    have hc : c ≠ nlChar := hl c (List.mem_cons_self c l')
    simp only [rustLinesGo, if_neg hc]
    rw [ih (acc ++ [c]) (fun d hd => hl d (List.mem_cons_of_mem c hd))]
    simp

theorem rustLines_joinNl (ls : List (List Char)) (hne : ls ≠ [])
    (hclean : ∀ l ∈ ls, ∀ c ∈ l, c ≠ nlChar) (hcr : noMidCR ls = true) :
    rustLines (joinNl ls) = if ls.getLast? = some [] then ls.dropLast else ls := by
  induction ls with
  | nil => exact absurd rfl hne
  | cons l ls' ih =>
    match ls' with
    | [] =>
      simp only [joinNl, rustLines]
      rw [rustLinesGo_last l [] (hclean l (List.mem_cons_self l []))]
      cases l with
      | nil => simp
      | cons c cs => simp
    | l2 :: rest =>
      have hjoin : joinNl (l :: l2 :: rest) = l ++ nlChar :: joinNl (l2 :: rest) := rfl
      simp only [rustLines, hjoin]
      rw [rustLinesGo_through l [] (joinNl (l2 :: rest)) (hclean l (List.mem_cons_self l _))]
      have hcr1 : l.getLast? ≠ some crChar := by
        simp only [noMidCR, Bool.and_eq_true, bne_iff_ne, ne_eq] at hcr
        exact hcr.1
      have hstrip : stripCR ([] ++ l) = l := by
        simp only [List.nil_append, stripCR, if_neg hcr1]
      rw [hstrip]
      have ihr := ih (by simp)
        (fun m hm => hclean m (List.mem_cons_of_mem l hm))
        (by
          simp only [noMidCR, Bool.and_eq_true] at hcr
          exact hcr.2)
      rw [show rustLinesGo [] (joinNl (l2 :: rest)) = rustLines (joinNl (l2 :: rest)) from rfl,
        ihr]
      rw [List.getLast?_cons_cons]
      split
      · simp
      · rfl

/-- C10 amended: to_string joins the lines with the newline character and from_string splits on
line terminators (empty input yielding one empty line).  For buffers whose lines contain no
newline character and whose non-last lines do not end in a carriage return (every buffer the
splitter itself can produce), the round trip from_string (to_string b) reproduces b exactly
when the last line is non-empty, and for the single-empty-line buffer; but for any such buffer
with at least two lines whose last line is empty, the round trip drops the trailing empty line,
so saving and reopening such a document loses its final blank line.  (Without the proviso the
first part fails: a line containing an embedded newline is re-split, see the counterexample.) -/
theorem from_string_to_string_roundtrip (b : TextBuffer)
    (hclean : ∀ l ∈ b.lines, ∀ c ∈ l, c ≠ nlChar) (hcr : noMidCR b.lines = true) :
    (b.lines ≠ [] → b.lines.getLast? ≠ some [] →
      TextBuffer.from_string (TextBuffer.to_string b) = b) ∧
    (TextBuffer.from_string (TextBuffer.to_string TextBuffer.new) = TextBuffer.new) ∧
    (2 ≤ b.lines.length → b.lines.getLast? = some [] →
      TextBuffer.from_string (TextBuffer.to_string b) = ⟨b.lines.dropLast⟩ ∧
      (⟨b.lines.dropLast⟩ : TextBuffer) ≠ b) := by
  refine ⟨?_, by decide, ?_⟩
  · intro hne hlast
    have hrl := rustLines_joinNl b.lines hne hclean hcr
    rw [if_neg hlast] at hrl
    simp only [TextBuffer.from_string, TextBuffer.to_string, hrl]
    rw [if_neg (by simpa [List.isEmpty_iff] using hne)]
  · intro hlen hlast
    have hne : b.lines ≠ [] := by
      intro hc
      rw [hc] at hlen
      simp at hlen
    have hrl := rustLines_joinNl b.lines hne hclean hcr
    rw [if_pos hlast] at hrl
    have hdne : b.lines.dropLast ≠ [] := by
      intro hc
      have := congrArg List.length hc
      simp only [List.length_dropLast, List.length_nil] at this
      omega
    constructor
    · simp only [TextBuffer.from_string, TextBuffer.to_string, hrl]
      rw [if_neg (by simpa [List.isEmpty_iff] using hdne)]
    · intro hc
      have : b.lines.dropLast = b.lines := congrArg TextBuffer.lines hc
      have hlen2 := congrArg List.length this
      simp only [List.length_dropLast] at hlen2
      omega

/-- C10 amended witness: the two-line buffer ["ab","c"] (last line non-empty) survives the
round trip exactly, and the two-line buffer ["ab",""] (last line empty) loses its trailing
empty line. -/
theorem from_string_to_string_roundtrip_witness :
    TextBuffer.from_string (TextBuffer.to_string ⟨["ab".toList, "c".toList]⟩) =
      (⟨["ab".toList, "c".toList]⟩ : TextBuffer) ∧
    TextBuffer.from_string (TextBuffer.to_string ⟨["ab".toList, []]⟩) =
      (⟨["ab".toList]⟩ : TextBuffer) :=
  ⟨(from_string_to_string_roundtrip ⟨["ab".toList, "c".toList]⟩ (by decide) (by decide)).1
      (by decide) (by decide),
    ((from_string_to_string_roundtrip ⟨["ab".toList, []]⟩ (by decide) (by decide)).2.2
      (by decide) (by decide)).1⟩

/-- C9 witness: deleting at column 0 of "ab" returns nothing and leaves the buffer unchanged. -/
theorem delete_char_spec_witness :
    TextBuffer.delete_char ⟨["ab".toList]⟩ 0 0 = (none, ⟨["ab".toList]⟩) :=
  (delete_char_spec ⟨["ab".toList]⟩ 0 0).2.2 (Or.inl rfl)

theorem strFind_some_isPrefixOf (q : List Char) :
    ∀ (hay : List Char) (i : Nat), strFind q hay = some i → q.isPrefixOf (hay.drop i) = true := by
  intro hay
  induction hay with
  | nil =>
    intro i h
    rw [strFind.eq_def] at h
    split at h
    · next hp =>
      injection h with h0
      subst h0
      simpa using hp
    · simp at h
  | cons a t ih =>
    intro i h
    rw [strFind.eq_def] at h
    split at h
    · next hp =>
      injection h with h0
      subst h0
      simpa using hp
    · next hp =>
      simp only [Option.map_eq_some'] at h
      obtain ⟨i', hi', rfl⟩ := h
      simpa [List.drop_succ_cons] using ih i' hi'

theorem strFind_some_min (q : List Char) :
    ∀ (hay : List Char) (i : Nat), strFind q hay = some i →
      ∀ j, j < i → ¬ q.isPrefixOf (hay.drop j) = true := by
  intro hay
  induction hay with
  | nil =>
    intro i h j hj
    rw [strFind.eq_def] at h
    split at h
    · injection h with h0
      omega
    · simp at h
  | cons a t ih =>
    intro i h j hj
    rw [strFind.eq_def] at h
    split at h
    · injection h with h0
      omega
    · next hp =>
      simp only [Option.map_eq_some'] at h
      obtain ⟨i', hi', rfl⟩ := h
      match j with
      | 0 => simpa using hp
      | j' + 1 =>
        simpa [List.drop_succ_cons] using ih i' hi' j' (by omega)

theorem strFind_none_isPrefixOf (q : List Char) :
    ∀ (hay : List Char), strFind q hay = none →
      ∀ j, ¬ q.isPrefixOf (hay.drop j) = true := by
  intro hay
  induction hay with
  | nil =>
    intro h j
    rw [strFind.eq_def] at h
    split at h
    · simp at h
    · next hp => simpa using hp
  | cons a t ih =>
    intro h j
    rw [strFind.eq_def] at h
    split at h
    · simp at h
    · next hp =>
      rw [Option.map_eq_none'] at h
      match j with
      | 0 => simpa using hp
      | j' + 1 => simpa [List.drop_succ_cons] using ih h j'

theorem prefixOf_length_le (l1 l2 : List Char) (h : l1.isPrefixOf l2 = true) :
    l1.length ≤ l2.length := by
  have h2 := List.isPrefixOf_iff_prefix.mp h
  exact h2.length_le

theorem isPrefixOf_take_iff (q ys : List Char) (m : Nat) :
    q.isPrefixOf (ys.take m) = true ↔ (q.isPrefixOf ys = true ∧ q.length ≤ m) := by
  simp [List.prefix_take_iff]

theorem isPrefixOf_drop_take (q line : List Char) (c k : Nat) (hq : q ≠ []) :
    q.isPrefixOf ((line.take k).drop c) = true ↔
      (q.isPrefixOf (line.drop c) = true ∧ c + q.length ≤ k) := by
  rw [List.drop_take, isPrefixOf_take_iff]
  have hql : 0 < q.length := List.length_pos.mpr hq
  constructor
  · rintro ⟨h1, h2⟩
    exact ⟨h1, by omega⟩
  · rintro ⟨h1, h2⟩
    exact ⟨h1, by omega⟩

theorem drop_drop_of_le (line : List Char) (a b : Nat) (h : a ≤ b) :
    (line.drop a).drop (b - a) = line.drop b := by
  rw [List.drop_drop]
  congr 1
  omega

theorem drop_cons_decomp (lines : List (List Char)) (row : Nat) (line : List Char)
    (rest : List (List Char)) (h : line :: rest = lines.drop row) :
    row < lines.length ∧ lines.getD row [] = line ∧ rest = lines.drop (row + 1) := by
  have hrow : row < lines.length := by
    by_contra hc
    push_neg at hc
    rw [List.drop_eq_nil_iff.mpr hc] at h
    simp at h
  have hcons := List.drop_eq_getElem_cons (l := lines) hrow
  rw [← h] at hcons
  injection hcons with h1 h2
  refine ⟨hrow, ?_, h2⟩
  simp [List.getD_eq_getElem?_getD, List.getElem?_eq_getElem hrow, h1]

theorem rowScan_some (line : List Char) (q : List Char) (startc col : Nat)
    (h : strFind q (line.drop startc) = some col) :
    q.isPrefixOf (line.drop (startc + col)) = true ∧
      ∀ c', startc ≤ c' → q.isPrefixOf (line.drop c') = true → startc + col ≤ c' := by
  constructor
  · have h2 := strFind_some_isPrefixOf q _ _ h
    rwa [List.drop_drop] at h2
  · intro c' hge hp
    by_contra hc
    push_neg at hc
    have h2 := strFind_some_min q _ _ h (c' - startc) (by omega)
    rw [drop_drop_of_le line startc c' hge] at h2
    exact h2 hp

theorem rowScan_none (line : List Char) (q : List Char) (startc : Nat)
    (h : strFind q (line.drop startc) = none) :
    ∀ c', startc ≤ c' → ¬ q.isPrefixOf (line.drop c') = true := by
  intro c' hge hp
  have h2 := strFind_none_isPrefixOf q _ h (c' - startc)
  rw [drop_drop_of_le line startc c' hge] at h2
  exact h2 hp

theorem rowScanTake_some (line : List Char) (q : List Char) (endc col : Nat) (hq : q ≠ [])
    (h : strFind q (line.take endc) = some col) :
    (q.isPrefixOf (line.drop col) = true ∧ col + q.length ≤ endc) ∧
      ∀ c', q.isPrefixOf (line.drop c') = true → c' + q.length ≤ endc → col ≤ c' := by
  constructor
  · exact (isPrefixOf_drop_take q line col endc hq).mp (strFind_some_isPrefixOf q _ _ h)
  · intro c' hp hle
    by_contra hc
    push_neg at hc
    exact strFind_some_min q _ _ h c' hc ((isPrefixOf_drop_take q line c' endc hq).mpr ⟨hp, hle⟩)

theorem rowScanTake_none (line : List Char) (q : List Char) (endc : Nat) (hq : q ≠ [])
    (h : strFind q (line.take endc) = none) :
    ∀ c', q.isPrefixOf (line.drop c') = true → c' + q.length ≤ endc → False := by
  intro c' hp hle
  exact strFind_none_isPrefixOf q _ h c' ((isPrefixOf_drop_take q line c' endc hq).mpr ⟨hp, hle⟩)

theorem fwdSearch_some (lines : List (List Char)) (q : List Char) (sr sc : Nat) :
    ∀ (rows : List (List Char)) (row r c : Nat),
      rows = lines.drop row → sr ≤ row →
      fwdSearch q sr sc row rows = some (r, c) →
      row ≤ r ∧ matchAt lines q r c ∧ (r = sr → sc ≤ c) ∧
      ∀ r' c', row ≤ r' → (r' = sr → sc ≤ c') → matchAt lines q r' c' →
        (r < r' ∨ (r = r' ∧ c ≤ c')) := by
  intro rows
  induction rows with
  | nil =>
    intro row r c hrows hsr h
    simp [fwdSearch] at h
  | cons line rest ih =>
    intro row r c hrows hsr h
    obtain ⟨hrow, hgetD, hrest⟩ := drop_cons_decomp lines row line rest hrows
    simp only [fwdSearch] at h
    cases hfind : strFind q (line.drop (if row = sr then sc else 0)) with
    | some col =>
      rw [hfind] at h
      replace h : some (row, (if row = sr then sc else 0) + col) = some (r, c) := h
      have h23 : row = r ∧ (if row = sr then sc else 0) + col = c := by
        simpa using h
      have h2 : row = r := h23.1
      have h3 : (if row = sr then sc else 0) + col = c := h23.2
      obtain ⟨hpref, hmin1⟩ := rowScan_some line q (if row = sr then sc else 0) col hfind
      refine ⟨by omega, ⟨by omega, ?_⟩, ?_, ?_⟩
      · rw [← h2, ← h3, hgetD]
        exact hpref
      · intro hreq
        rw [← h2] at hreq
        rw [← h3, if_pos hreq]
        omega
      · intro r' c' hr' hsc' hm'
        rw [← h2, ← h3]
        rcases Nat.lt_or_ge row r' with hlt | hge
        · exact Or.inl hlt
        · have hr'eq : r' = row := by omega
          refine Or.inr ⟨hr'eq.symm, ?_⟩
          have hge2 : (if row = sr then sc else 0) ≤ c' := by
            by_cases hrs : row = sr
            · rw [if_pos hrs]
              exact hsc' (by omega)
            · rw [if_neg hrs]
              omega
          have hm'2 : q.isPrefixOf (line.drop c') = true := by
            have h4 := hm'.2
            rw [hr'eq, hgetD] at h4
            exact h4
          exact hmin1 c' hge2 hm'2
    | none =>
      rw [hfind] at h
      replace h : fwdSearch q sr sc (row + 1) rest = some (r, c) := h
      obtain ⟨hle, hmatch, himp, hmin⟩ := ih (row + 1) r c hrest (by omega) h
      refine ⟨by omega, hmatch, himp, ?_⟩
      intro r' c' hr' hsc' hm'
      rcases Nat.lt_or_ge r' (row + 1) with hlt | hge
      · have hr'eq : r' = row := by omega
        exfalso
        have hge2 : (if row = sr then sc else 0) ≤ c' := by
          by_cases hrs : row = sr
          · rw [if_pos hrs]
            exact hsc' (by omega)
          · rw [if_neg hrs]
            omega
        have hm'2 : q.isPrefixOf (line.drop c') = true := by
          have h4 := hm'.2
          rw [hr'eq, hgetD] at h4
          exact h4
        exact rowScan_none line q (if row = sr then sc else 0) hfind c' hge2 hm'2
      · exact hmin r' c' hge hsc' hm'

theorem fwdSearch_none (lines : List (List Char)) (q : List Char) (sr sc : Nat) :
    ∀ (rows : List (List Char)) (row : Nat),
      rows = lines.drop row → sr ≤ row →
      fwdSearch q sr sc row rows = none →
      ∀ r' c', row ≤ r' → (r' = sr → sc ≤ c') → ¬ matchAt lines q r' c' := by
  intro rows
  induction rows with
  | nil =>
    intro row hrows hsr h r' c' hr' hsc' hm'
    have hlen : lines.length ≤ row := List.drop_eq_nil_iff.mp hrows.symm
    have h1 := hm'.1
    omega
  | cons line rest ih =>
    intro row hrows hsr h r' c' hr' hsc' hm'
    obtain ⟨hrow, hgetD, hrest⟩ := drop_cons_decomp lines row line rest hrows
    simp only [fwdSearch] at h
    cases hfind : strFind q (line.drop (if row = sr then sc else 0)) with
    | some col =>
      rw [hfind] at h
      simp at h
    | none =>
      rw [hfind] at h
      replace h : fwdSearch q sr sc (row + 1) rest = none := h
      rcases Nat.lt_or_ge r' (row + 1) with hlt | hge
      · have hr'eq : r' = row := by omega
        have hge2 : (if row = sr then sc else 0) ≤ c' := by
          by_cases hrs : row = sr
          · rw [if_pos hrs]
            exact hsc' (by omega)
          · rw [if_neg hrs]
            omega
        have hm'2 : q.isPrefixOf (line.drop c') = true := by
          have h4 := hm'.2
          rw [hr'eq, hgetD] at h4
          exact h4
        exact rowScan_none line q (if row = sr then sc else 0) hfind c' hge2 hm'2
      · exact ih (row + 1) hrest (by omega) h r' c' hge hsc' hm'

theorem wrapSearch_some (lines : List (List Char)) (q : List Char) (sr sc : Nat) (hq : q ≠ []) :
    ∀ (rows : List (List Char)) (row r c : Nat),
      rows = lines.drop row →
      wrapSearch q sr sc row rows = some (r, c) →
      row ≤ r ∧ r ≤ sr ∧ matchAt lines q r c ∧ (r = sr → c + q.length ≤ sc) ∧
      ∀ r' c', row ≤ r' → r' ≤ sr → (r' = sr → c' + q.length ≤ sc) →
        matchAt lines q r' c' → (r < r' ∨ (r = r' ∧ c ≤ c')) := by
  intro rows
  induction rows with
  | nil =>
    intro row r c hrows h
    simp [wrapSearch] at h
  | cons line rest ih =>
    intro row r c hrows h
    obtain ⟨hrow, hgetD, hrest⟩ := drop_cons_decomp lines row line rest hrows
    have hql : 0 < q.length := List.length_pos.mpr hq
    simp only [wrapSearch] at h
    split at h
    · simp at h
    · next hguard =>
      push_neg at hguard
      cases hfind : strFind q (line.take (if row = sr then sc else line.length)) with
      | some col =>
        rw [hfind] at h
        replace h : some (row, col) = some (r, c) := h
        have h23 : row = r ∧ col = c := by
          simpa using h
        have h2 : row = r := h23.1
        have h3 : col = c := h23.2
        obtain ⟨⟨hpref, hle⟩, hmin1⟩ :=
          rowScanTake_some line q (if row = sr then sc else line.length) col hq hfind
        refine ⟨by omega, by omega, ⟨by omega, ?_⟩, ?_, ?_⟩
        · rw [← h2, ← h3, hgetD]
          exact hpref
        · intro hreq
          rw [← h2] at hreq
          rw [← h3]
          rw [if_pos hreq] at hle
          exact hle
        · intro r' c' hr' hr'sr hsc' hm'
          rw [← h2, ← h3]
          rcases Nat.lt_or_ge row r' with hlt | hge
          · exact Or.inl hlt
          · have hr'eq : r' = row := by omega
            refine Or.inr ⟨hr'eq.symm, ?_⟩
            have hm'2 : q.isPrefixOf (line.drop c') = true := by
              have h4 := hm'.2
              rw [hr'eq, hgetD] at h4
              exact h4
            have hle' : c' + q.length ≤ (if row = sr then sc else line.length) := by
              by_cases hrs : row = sr
              · rw [if_pos hrs]
                exact hsc' (by omega)
              · rw [if_neg hrs]
                have h5 := prefixOf_length_le q _ hm'2
                have hdl : (line.drop c').length = line.length - c' := by simp
                omega
            exact hmin1 c' hm'2 hle'
      | none =>
        rw [hfind] at h
        replace h : wrapSearch q sr sc (row + 1) rest = some (r, c) := h
        obtain ⟨hle1, hle2, hmatch, himp, hmin⟩ := ih (row + 1) r c hrest h
        refine ⟨by omega, hle2, hmatch, himp, ?_⟩
        intro r' c' hr' hr'sr hsc' hm'
        rcases Nat.lt_or_ge r' (row + 1) with hlt | hge
        · have hr'eq : r' = row := by omega
          exfalso
          have hm'2 : q.isPrefixOf (line.drop c') = true := by
            have h4 := hm'.2
            rw [hr'eq, hgetD] at h4
            exact h4
          have hle' : c' + q.length ≤ (if row = sr then sc else line.length) := by
            by_cases hrs : row = sr
            · rw [if_pos hrs]
              exact hsc' (by omega)
            · rw [if_neg hrs]
              have h5 := prefixOf_length_le q _ hm'2
              have hdl : (line.drop c').length = line.length - c' := by simp
              omega
          exact rowScanTake_none line q (if row = sr then sc else line.length) hq hfind c'
            hm'2 hle'
        · exact hmin r' c' hge hr'sr hsc' hm'

theorem wrapSearch_none (lines : List (List Char)) (q : List Char) (sr sc : Nat) (hq : q ≠ []) :
    ∀ (rows : List (List Char)) (row : Nat),
      rows = lines.drop row →
      wrapSearch q sr sc row rows = none →
      ∀ r' c', row ≤ r' → r' ≤ sr → (r' = sr → c' + q.length ≤ sc) →
        ¬ matchAt lines q r' c' := by
  intro rows
  induction rows with
  | nil =>
    intro row hrows h r' c' hr' hr'sr hsc' hm'
    have hlen : lines.length ≤ row := List.drop_eq_nil_iff.mp hrows.symm
    have h1 := hm'.1
    omega
  | cons line rest ih =>
    intro row hrows h r' c' hr' hr'sr hsc' hm'
    obtain ⟨hrow, hgetD, hrest⟩ := drop_cons_decomp lines row line rest hrows
    have hql : 0 < q.length := List.length_pos.mpr hq
    simp only [wrapSearch] at h
    split at h
    · next hguard => omega
    · next hguard =>
      cases hfind : strFind q (line.take (if row = sr then sc else line.length)) with
      | some col =>
        rw [hfind] at h
        simp at h
      | none =>
        rw [hfind] at h
        replace h : wrapSearch q sr sc (row + 1) rest = none := h
        rcases Nat.lt_or_ge r' (row + 1) with hlt | hge
        · have hr'eq : r' = row := by omega
          have hm'2 : q.isPrefixOf (line.drop c') = true := by
            have h4 := hm'.2
            rw [hr'eq, hgetD] at h4
            exact h4
          have hle' : c' + q.length ≤ (if row = sr then sc else line.length) := by
            by_cases hrs : row = sr
            · rw [if_pos hrs]
              exact hsc' (by omega)
            · rw [if_neg hrs]
              have h5 := prefixOf_length_le q _ hm'2
              have hdl : (line.drop c').length = line.length - c' := by simp
              omega
          exact rowScanTake_none line q (if row = sr then sc else line.length) hq hfind c'
            hm'2 hle'
        · exact ih (row + 1) hrest h r' c' hge hr'sr hsc' hm'

theorem eligible_disjoint (q : List Char) (sr sc r c : Nat) (hq : q ≠ [])
    (h1 : fwdEligible sr sc r c) (h2 : wrapEligible q sr sc r c) : False := by
  have hql : 0 < q.length := List.length_pos.mpr hq
  simp only [fwdEligible] at h1
  simp only [wrapEligible] at h2
  rcases h1 with h1 | ⟨h1a, h1b⟩ <;> rcases h2 with h2 | ⟨h2a, h2b⟩ <;> omega

/-- C4 amended: for every non-empty query and in-bounds start position, search scans forward
from (start_row, start_col) inclusive to the end of the document, then wraps and scans rows
0..start_row, where in row start_row only matches lying entirely before start_col are eligible;
the first match at-or-after the start position in this cyclic order wins.  Precisely: when
search returns a position, that position is an occurrence of the query, is forward-eligible
(at-or-after the start) or wrap-eligible (before start_row, or entirely before start_col in row
start_row), and is minimal in scan order (forward pass before wrap pass, then row, then column)
among all eligible occurrences — so a match exactly at the start position is returned by the
forward pass, never the wrap-around pass; and when search returns nothing, no eligible
occurrence exists. -/
theorem search_cyclic_first_match (lines : List (List Char)) (q : List Char) (sr sc : Nat)
    (hq : q ≠ []) (_hsr : sr < lines.length) (_hsc : sc ≤ (lines.getD sr []).length) :
    (∀ r c, TextBuffer.search ⟨lines⟩ q sr sc = some (r, c) →
      matchAt lines q r c ∧
      (fwdEligible sr sc r c ∨ wrapEligible q sr sc r c) ∧
      ∀ r' c', matchAt lines q r' c' →
        (fwdEligible sr sc r' c' ∨ wrapEligible q sr sc r' c') →
        scanOrderLE sr sc r c r' c') ∧
    (TextBuffer.search ⟨lines⟩ q sr sc = none →
      ∀ r c, matchAt lines q r c →
        ¬ fwdEligible sr sc r c ∧ ¬ wrapEligible q sr sc r c) := by
  have hqe : q.isEmpty = false := by
    cases q with
    | nil => exact absurd rfl hq
    | cons a l => rfl
  constructor
  · intro r c h
    simp only [TextBuffer.search, hqe, Bool.false_eq_true, if_false] at h
    cases hf : fwdSearch q sr sc sr (lines.drop sr) with
    | some p =>
      rw [hf] at h
      replace h : some p = some (r, c) := h
      have hp : p = (r, c) := by simpa using h
      rw [hp] at hf
      obtain ⟨hle, hmatch, himp, hmin⟩ :=
        fwdSearch_some lines q sr sc (lines.drop sr) sr r c rfl (Nat.le_refl sr) hf
      have hfwd : fwdEligible sr sc r c := by
        simp only [fwdEligible]
        rcases Nat.lt_or_ge sr r with hlt | hge
        · exact Or.inl hlt
        · exact Or.inr ⟨by omega, himp (by omega)⟩
      refine ⟨hmatch, Or.inl hfwd, ?_⟩
      intro r' c' hm' he'
      rcases he' with he' | he'
      · have h1 : sr ≤ r' ∧ (r' = sr → sc ≤ c') := by
          simp only [fwdEligible] at he'
          rcases he' with he' | ⟨hea, heb⟩
          · exact ⟨by omega, fun hh => by omega⟩
          · exact ⟨by omega, fun _ => heb⟩
        have hlex := hmin r' c' h1.1 h1.2 hm'
        have hc1 : scanPass sr sc r c = 0 := by
          simp only [scanPass]
          rw [if_pos (by simpa [fwdEligible] using hfwd)]
        have hc2 : scanPass sr sc r' c' = 0 := by
          simp only [scanPass]
          rw [if_pos (by simpa [fwdEligible] using he')]
        exact Or.inr ⟨by omega, hlex⟩
      · have hnf : ¬ fwdEligible sr sc r' c' := fun hcon =>
          eligible_disjoint q sr sc r' c' hq hcon he'
        have hc1 : scanPass sr sc r c = 0 := by
          simp only [scanPass]
          rw [if_pos (by simpa [fwdEligible] using hfwd)]
        have hc2 : scanPass sr sc r' c' = 1 := by
          simp only [scanPass]
          rw [if_neg (by simpa [fwdEligible] using hnf)]
        exact Or.inl (by omega)
    | none =>
      rw [hf] at h
      replace h : wrapSearch q sr sc 0 lines = some (r, c) := h
      obtain ⟨h0, hrsr, hmatch, himp, hmin⟩ :=
        wrapSearch_some lines q sr sc hq lines 0 r c (by simp) h
      have hwrap : wrapEligible q sr sc r c := by
        simp only [wrapEligible]
        rcases Nat.lt_or_ge r sr with hlt | hge
        · exact Or.inl hlt
        · exact Or.inr ⟨by omega, himp (by omega)⟩
      have hfn := fwdSearch_none lines q sr sc (lines.drop sr) sr rfl (Nat.le_refl sr) hf
      have hnf_p : ¬ fwdEligible sr sc r c := fun hcon =>
        eligible_disjoint q sr sc r c hq hcon hwrap
      refine ⟨hmatch, Or.inr hwrap, ?_⟩
      intro r' c' hm' he'
      rcases he' with he' | he'
      · exfalso
        have h1 : sr ≤ r' ∧ (r' = sr → sc ≤ c') := by
          simp only [fwdEligible] at he'
          rcases he' with he' | ⟨hea, heb⟩
          · exact ⟨by omega, fun hh => by omega⟩
          · exact ⟨by omega, fun _ => heb⟩
        exact hfn r' c' h1.1 h1.2 hm'
      · have h2 : r' ≤ sr ∧ (r' = sr → c' + q.length ≤ sc) := by
          simp only [wrapEligible] at he'
          rcases he' with he' | ⟨hea, heb⟩
          · exact ⟨by omega, fun hh => by omega⟩
          · exact ⟨by omega, fun _ => heb⟩
        have hlex := hmin r' c' (Nat.zero_le r') h2.1 h2.2 hm'
        have hnf_p' : ¬ fwdEligible sr sc r' c' := fun hcon =>
          eligible_disjoint q sr sc r' c' hq hcon he'
        have hc1 : scanPass sr sc r c = 1 := by
          simp only [scanPass]
          rw [if_neg (by simpa [fwdEligible] using hnf_p)]
        have hc2 : scanPass sr sc r' c' = 1 := by
          simp only [scanPass]
          rw [if_neg (by simpa [fwdEligible] using hnf_p')]
        exact Or.inr ⟨by omega, hlex⟩
  · intro h r c hm
    simp only [TextBuffer.search, hqe, Bool.false_eq_true, if_false] at h
    cases hf : fwdSearch q sr sc sr (lines.drop sr) with
    | some p =>
      rw [hf] at h
      simp at h
    | none =>
      rw [hf] at h
      replace h : wrapSearch q sr sc 0 lines = none := h
      have hfn := fwdSearch_none lines q sr sc (lines.drop sr) sr rfl (Nat.le_refl sr) hf
      have hwn := wrapSearch_none lines q sr sc hq lines 0 (by simp) h
      constructor
      · intro he
        have h1 : sr ≤ r ∧ (r = sr → sc ≤ c) := by
          simp only [fwdEligible] at he
          rcases he with he | ⟨hea, heb⟩
          · exact ⟨by omega, fun hh => by omega⟩
          · exact ⟨by omega, fun _ => heb⟩
        exact hfn r c h1.1 h1.2 hm
      · intro he
        have h2 : r ≤ sr ∧ (r = sr → c + q.length ≤ sc) := by
          simp only [wrapEligible] at he
          rcases he with he | ⟨hea, heb⟩
          · exact ⟨by omega, fun hh => by omega⟩
          · exact ⟨by omega, fun _ => heb⟩
        exact hwn r c (Nat.zero_le r) h2.1 h2.2 hm

/-- C4 amended witness: on document ["abcabc"] with query "abc" and start (0,0), search
returns (0,0); by the characterization this position is an occurrence of the query and is
forward- or wrap-eligible (here forward, at exactly the start position). -/
theorem search_cyclic_first_match_witness :
    matchAt ["abcabc".toList] "abc".toList 0 0 ∧
    (fwdEligible 0 0 0 0 ∨ wrapEligible "abc".toList 0 0 0 0) :=
  ⟨((search_cyclic_first_match ["abcabc".toList] "abc".toList 0 0 (by decide) (by decide)
      (by decide)).1 0 0 (by decide)).1,
    ((search_cyclic_first_match ["abcabc".toList] "abc".toList 0 0 (by decide) (by decide)
      (by decide)).1 0 0 (by decide)).2.1⟩
